import Mathlib

/-!
# Verification of the LEEF log parser (`src/leef_file.py`)

Shallow embedding of the parsing core of `leef_file.py`:

* `LeefHeader.__parse`   ↦ `Leef.leefHeaderParse`
* `LeefHeader.__getitem__` ↦ `Leef.dictGet` on the parsed content
* `LeefFile._parse`      ↦ `Leef.leefFileParse`

Strings are modelled as `List Char` (`Leef.Str`), so that Python's
character-level operations (`str.strip` with a character set, `str.split`
on a one-character separator, `str.split("=", 1)`) become structurally
recursive functions amenable to proof.  The `delimeter` argument of the
source, a string whose default is the single tab character, is modelled
as a `Char`; every behaviour the specification discusses uses the
one-character default.

Python dictionaries are modelled as association lists in insertion
order (`dictInsert` overwrites in place, otherwise appends), and a
`KeyError` on lookup is modelled as `dictGet` returning `none`.

The exceptions raised by the source are modelled by `Leef.ParseError`:

* `wrongHeaderStructureCount items` — the `WrongHeaderStructure` raise
  whose message is " Not equal number of header fields: header - {items}"
  (its payload interpolates exactly the offending segment tuple);
* `wrongHeaderStructureDup` — the `WrongHeaderStructure` raise whose
  message is " All header fields must be unique" (no further payload);
* `valueErrorUnpack` — the `ValueError` raised by unpacking
  `field.split("=", 1)` into two names when the segment has no `=`
  (the message carries no parsed payload).
-/

namespace Leef

/-- Strings of the parser are lists of characters. -/
abbrev Str := List Char

/-- Python whitespace test for a single character, over the ASCII
whitespace characters (`str.isspace` also accepts some Unicode
whitespace; no behaviour discussed here involves those). -/
def isPySpaceChar (c : Char) : Bool :=
  c = ' ' || c = '\t' || c = '\n' || c = '\x0b' || c = '\x0c' || c = '\r'

/-- `s.isspace()`: `s` is non-empty and all of its characters are
whitespace. -/
def pyIsSpace (s : Str) : Bool :=
  !s.isEmpty && s.all isPySpaceChar

/-- Python `s.split(sep)` for a one-character separator: splits on every
occurrence, keeping empty pieces, and splitting the empty string gives
`[[]]`. -/
def splitOnChar (c : Char) : Str → List Str
  | [] => [[]]
  | x :: xs =>
    match splitOnChar c xs with
    | [] => [[x]]
    | y :: ys => if x = c then [] :: y :: ys else (x :: y) :: ys

/-- Python `s.strip(cs)`: drop from both ends every character that is a
member of the character set `cs`. -/
def stripChars (cs : Str) (s : Str) : Str :=
  (s.dropWhile (cs.contains ·)).rdropWhile (cs.contains ·)

/-- Python `field.split("=", 1)` followed by unpacking into two names:
split at the first `=` only; `none` when there is no `=` (the source
raises `ValueError` there). -/
def splitEqOnce : Str → Option (Str × Str)
  | [] => none
  | c :: cs =>
    if c = '=' then some ([], cs)
    else (splitEqOnce cs).map (fun p => (c :: p.1, p.2))

/-- Python dictionary assignment `d[k] = v` on an insertion-ordered
association list: overwrite in place when the key is present, append
otherwise. -/
def dictInsert : List (Str × Str) → Str → Str → List (Str × Str)
  | [], k, v => [(k, v)]
  | (a, b) :: d, k, v =>
    if a = k then (k, v) :: d else (a, b) :: dictInsert d k v

/-- Python dictionary lookup `d[k]`, with `none` for `KeyError`. -/
def dictGet (d : List (Str × Str)) (k : Str) : Option Str :=
  (d.find? (fun p => p.1 = k)).map Prod.snd

/-- The errors raised by the parsing core, one constructor per raise
site, each carrying exactly what the raise interpolates into its
message (see the module docstring). -/
inductive ParseError where
  | wrongHeaderStructureCount (items : List Str)
  | wrongHeaderStructureDup
  | valueErrorUnpack
deriving DecidableEq

/-- One parsed log line: the header content dictionary produced by
`LeefHeader.__parse` together with the body dictionary
(the `Record` dataclass of the source). -/
structure Record where
  header : List (Str × Str)
  body : List (Str × Str)
deriving DecidableEq

/-- The pipe segments of a header after marker stripping:
`payload.strip("LEEF:")`, split on `|`, empty segments discarded
(`filter(lambda x: x, ...)`). -/
def headerItems (payload : Str) : List Str :=
  ((splitOnChar '|' (stripChars ("LEEF:".toList) payload)).filter
    (fun x => !x.isEmpty))

/-- `LeefHeader.__parse`: strip the marker characters, split on `|`,
drop empty segments; fail when the segment count differs from the
schema length, then when the schema has a repeated name
(`len(set(hs)) != len(hs)` is modelled as `hs.dedup.length ≠ hs.length`);
otherwise assign segment `i` to `headerStructure[i]` by dictionary
insertion. -/
def leefHeaderParse (payload : Str) (headerStructure : List Str) :
    Except ParseError (List (Str × Str)) :=
  let items := headerItems payload
  if items.length ≠ headerStructure.length then
    .error (.wrongHeaderStructureCount items)
  else if headerStructure.dedup.length ≠ headerStructure.length then
    .error .wrongHeaderStructureDup
  else
    .ok ((headerStructure.zip items).foldl
      (fun d p => dictInsert d p.1 p.2) [])

/-- The body loop of `LeefFile._parse`: for each remaining segment,
split once on `=` (raising on failure) and assign into the body
dictionary. -/
def parseBodyFields (acc : List (Str × Str)) :
    List Str → Except ParseError (List (Str × Str))
  | [] => .ok acc
  | f :: fs =>
    match splitEqOnce f with
    | none => .error .valueErrorUnpack
    | some (k, v) => parseBodyFields (dictInsert acc k v) fs

/-- One iteration of the per-line loop of `LeefFile._parse`: split the
line on the delimiter, pop the first segment as the header text, parse
it, then parse the remaining segments as body fields. -/
def parseRecordLine (headerStructure : List Str) (delim : Char)
    (line : Str) : Except ParseError Record :=
  let parts := splitOnChar delim line
  match leefHeaderParse (parts.headD []) headerStructure with
  | .error e => .error e
  | .ok hd =>
    match parseBodyFields [] parts.tail with
    | .error e => .error e
    | .ok body => .ok ⟨hd, body⟩

/-- The per-line loop of `LeefFile._parse`: parse each retained line in
order, appending the records; the first exception aborts the loop. -/
def parseLines (headerStructure : List Str) (delim : Char) :
    List Str → Except ParseError (List Record)
  | [] => .ok []
  | l :: ls =>
    match parseRecordLine headerStructure delim l with
    | .error e => .error e
    | .ok r =>
      match parseLines headerStructure delim ls with
      | .error e => .error e
      | .ok rs => .ok (r :: rs)

/-- The lines of the payload that `LeefFile._parse` keeps: split on
newline, keep a line iff it is not whitespace-only and not empty
(`not x.isspace() and x`). -/
def retainedLines (payload : Str) : List Str :=
  (splitOnChar '\n' payload).filter (fun x => !pyIsSpace x && !x.isEmpty)

/-- `LeefFile._parse`: split into lines, discard blank ones, parse each
retained line in order. -/
def leefFileParse (payload : Str) (headerStructure : List Str)
    (delim : Char) : Except ParseError (List Record) :=
  parseLines headerStructure delim (retainedLines payload)

/-- Joining a list of strings with a one-character separator. -/
def joinSep (c : Char) : List Str → Str
  | [] => []
  | [v] => v
  | v :: vs => v ++ c :: joinSep c vs

/-- A header string as the specification's round-trip builds it: the
literal marker followed by the values joined with pipes. -/
def buildHeader (values : List Str) : Str :=
  "LEEF:".toList ++ joinSep '|' values

instance {ε α : Type} [DecidableEq ε] [DecidableEq α] :
    DecidableEq (Except ε α) := fun a b =>
  match a, b with
  | .ok x, .ok y =>
    if h : x = y then .isTrue (by rw [h])
    else .isFalse (by intro hc; cases hc; exact h rfl)
  | .error x, .error y =>
    if h : x = y then .isTrue (by rw [h])
    else .isFalse (by intro hc; cases hc; exact h rfl)
  | .ok _, .error _ => .isFalse (by intro hc; cases hc)
  | .error _, .ok _ => .isFalse (by intro hc; cases hc)

/-! ## Helper lemmas on the character-level operations -/

theorem splitOnChar_ne_nil (c : Char) (s : Str) : splitOnChar c s ≠ [] := by
  cases s with
  | nil => simp [splitOnChar]
  | cons x xs =>
    simp only [splitOnChar]
    split
    · simp
    · split <;> simp

theorem splitOnChar_of_not_mem {c : Char} {v : Str} (h : c ∉ v) :
    splitOnChar c v = [v] := by
  induction v with
  | nil => rfl
  | cons x xs ih =>
    have hx : x ≠ c := by rintro rfl; exact h (List.mem_cons_self _ _)
    have hxs : c ∉ xs := fun hm => h (List.mem_cons_of_mem _ hm)
    rw [splitOnChar, ih hxs]
    simp [hx]

theorem splitOnChar_append_cons {c : Char} {v : Str} (r : Str) (h : c ∉ v) :
    splitOnChar c (v ++ c :: r) = v :: splitOnChar c r := by
  induction v with
  | nil =>
    rw [List.nil_append, splitOnChar]
    cases hr : splitOnChar c r with
    | nil => exact absurd hr (splitOnChar_ne_nil c r)
    | cons y ys => simp
  | cons x xs ih =>
    have hx : x ≠ c := by rintro rfl; exact h (List.mem_cons_self _ _)
    have hxs : c ∉ xs := fun hm => h (List.mem_cons_of_mem _ hm)
    rw [List.cons_append, splitOnChar, ih hxs]
    simp [hx]

theorem splitOnChar_concat (c : Char) (l : Str) :
    splitOnChar c (l ++ [c]) = splitOnChar c l ++ [[]] := by
  induction l with
  | nil => simp [splitOnChar]
  | cons x xs ih =>
    rw [List.cons_append, splitOnChar, ih, splitOnChar]
    cases hx : splitOnChar c xs with
    | nil => exact absurd hx (splitOnChar_ne_nil c xs)
    | cons y ys => by_cases hc : x = c <;> simp [hc]

theorem joinSep_ne_nil (c : Char) (v : Str) (vs : List Str) (hv : v ≠ []) :
    joinSep c (v :: vs) ≠ [] := by
  cases vs with
  | nil => exact hv
  | cons w ws => show v ++ c :: joinSep c (w :: ws) ≠ []; simp

theorem joinSep_head? (c : Char) (v : Str) (vs : List Str) (hv : v ≠ []) :
    (joinSep c (v :: vs)).head? = v.head? := by
  cases vs with
  | nil => rfl
  | cons w ws =>
    show (v ++ c :: joinSep c (w :: ws)).head? = v.head?
    cases v with
    | nil => exact absurd rfl hv
    | cons a t => rfl

theorem joinSep_getLast? (c : Char) :
    ∀ (v : Str) (vs : List Str), (∀ w ∈ v :: vs, w ≠ []) →
      (joinSep c (v :: vs)).getLast? = (vs.getLastD v).getLast?
  | _, [], _ => rfl
  | v, w :: ws, h => by
    show (v ++ c :: joinSep c (w :: ws)).getLast? = _
    rw [List.getLast?_append_cons, List.getLastD_cons]
    have hne : joinSep c (w :: ws) ≠ [] :=
      joinSep_ne_nil c w ws (h w (List.mem_cons_of_mem _ (List.mem_cons_self _ _)))
    have ih := joinSep_getLast? c w ws
      (fun u hu => h u (List.mem_cons_of_mem _ hu))
    cases hj : joinSep c (w :: ws) with
    | nil => exact absurd hj hne
    | cons a t => rw [← hj, ← ih]; rw [hj]; rfl

theorem splitOnChar_joinSep {c : Char} :
    ∀ (v : Str) (vs : List Str), c ∉ v → (∀ w ∈ vs, c ∉ w) →
      splitOnChar c (joinSep c (v :: vs)) = v :: vs
  | v, [], hv, _ => by
    show splitOnChar c v = [v]
    exact splitOnChar_of_not_mem hv
  | v, w :: ws, hv, hws => by
    show splitOnChar c (v ++ c :: joinSep c (w :: ws)) = _
    rw [splitOnChar_append_cons _ hv,
      splitOnChar_joinSep w ws (hws w (List.mem_cons_self _ _))
        (fun u hu => hws u (List.mem_cons_of_mem _ hu))]

theorem dropWhile_append_of_forall {p : Char → Bool} {l₁ l₂ : Str}
    (h : ∀ a ∈ l₁, p a = true) :
    (l₁ ++ l₂).dropWhile p = l₂.dropWhile p := by
  induction l₁ with
  | nil => simp
  | cons x xs ih =>
    rw [List.cons_append, List.dropWhile_cons, if_pos (h x (List.mem_cons_self _ _))]
    exact ih (fun a ha => h a (List.mem_cons_of_mem _ ha))

/-- `str.strip(cs)` leaves a suffix untouched when everything before it
belongs to the strip set, its first character is outside the set, and
its last character is outside the set. -/
theorem stripChars_append_of_boundary {cs pre s : Str}
    (hpre : ∀ a ∈ pre, cs.contains a = true)
    (hs : s ≠ [])
    (hhead : ∀ a, s.head? = some a → cs.contains a = false)
    (hlast : ∀ a, s.getLast? = some a → cs.contains a = false) :
    stripChars cs (pre ++ s) = s := by
  obtain ⟨a, t, rfl⟩ : ∃ a t, s = a :: t := by
    cases s with
    | nil => exact absurd rfl hs
    | cons a t => exact ⟨a, t, rfl⟩
  rw [stripChars, dropWhile_append_of_forall hpre, List.dropWhile_cons,
    if_neg (by rw [hhead a rfl]; simp)]
  rw [List.rdropWhile_eq_self_iff]
  intro hl
  rw [hlast _ (List.getLast?_eq_getLast _ hl)]
  simp

/-! ## Helper lemmas on the dictionary model -/

theorem dictGet_cons (a b : Str) (d : List (Str × Str)) (k : Str) :
    dictGet ((a, b) :: d) k = if a = k then some b else dictGet d k := by
  by_cases h : a = k <;> simp [dictGet, List.find?_cons, h]

theorem dictGet_insert (d : List (Str × Str)) (k v k₂ : Str) :
    dictGet (dictInsert d k v) k₂ = if k₂ = k then some v else dictGet d k₂ := by
  induction d with
  | nil =>
    rw [dictInsert, dictGet_cons]
    by_cases h : k₂ = k
    · rw [if_pos h.symm, if_pos h]
    · rw [if_neg (fun e => h e.symm), if_neg h]
  | cons p d ih =>
    obtain ⟨a, b⟩ := p
    rw [dictInsert]
    by_cases hak : a = k
    · subst hak
      rw [if_pos rfl, dictGet_cons, dictGet_cons]
      by_cases h2 : k₂ = a
      · rw [if_pos h2.symm, if_pos h2]
      · rw [if_neg (fun e => h2 e.symm), if_neg h2, if_neg (fun e => h2 e.symm)]
    · rw [if_neg hak, dictGet_cons, dictGet_cons, ih]
      by_cases h2 : a = k₂
      · rw [if_pos h2, if_pos h2, if_neg (h2 ▸ hak)]
      · rw [if_neg h2, if_neg h2]

theorem dictInsert_of_not_mem (d : List (Str × Str)) (k v : Str)
    (h : k ∉ d.map Prod.fst) : dictInsert d k v = d ++ [(k, v)] := by
  induction d with
  | nil => rfl
  | cons p d ih =>
    obtain ⟨a, b⟩ := p
    rw [List.map_cons, List.mem_cons, not_or] at h
    rw [dictInsert, if_neg (fun e => h.1 e.symm), ih h.2, List.cons_append]

theorem foldl_dictInsert_of_nodup :
    ∀ (ps acc : List (Str × Str)),
      (ps.map Prod.fst).Nodup →
      (∀ k ∈ acc.map Prod.fst, k ∉ ps.map Prod.fst) →
      ps.foldl (fun d p => dictInsert d p.1 p.2) acc = acc ++ ps
  | [], acc, _, _ => by simp
  | (k, v) :: ps, acc, hnd, hacc => by
    rw [List.map_cons, List.nodup_cons] at hnd
    have hk : k ∉ acc.map Prod.fst := fun hm => hacc k hm (by simp)
    rw [List.foldl_cons, dictInsert_of_not_mem _ _ _ hk,
      foldl_dictInsert_of_nodup ps (acc ++ [(k, v)]) hnd.2 ?fresh]
    · simp
    case fresh =>
      intro k₂ hk₂
      rw [List.map_append, List.mem_append] at hk₂
      rcases hk₂ with hmem | hmem
      · exact fun hin => hacc k₂ hmem (List.mem_cons_of_mem _ hin)
      · simp at hmem
        subst hmem
        exact hnd.1

theorem headerAssign_eq_zip (ks vs : List Str)
    (hnd : ks.Nodup) (hlen : ks.length = vs.length) :
    (ks.zip vs).foldl (fun d p => dictInsert d p.1 p.2) [] = ks.zip vs := by
  have h := foldl_dictInsert_of_nodup (ks.zip vs) []
    (by rw [List.map_fst_zip ks vs (le_of_eq hlen)]; exact hnd) (by simp)
  simpa using h

theorem dictGet_zip_not_mem (ks vs : List Str) (k : Str) (h : k ∉ ks) :
    dictGet (ks.zip vs) k = none := by
  induction ks generalizing vs with
  | nil => rfl
  | cons a t ih =>
    cases vs with
    | nil => rfl
    | cons b w =>
      rw [List.zip_cons_cons, dictGet_cons,
        if_neg (by rintro rfl; exact h (List.mem_cons_self _ _))]
      exact ih w (fun hm => h (List.mem_cons_of_mem _ hm))

theorem dictGet_zip_get (ks vs : List Str) (hnd : ks.Nodup) (i : Nat)
    (hi : i < ks.length) (hj : i < vs.length) :
    dictGet (ks.zip vs) (ks.get ⟨i, hi⟩) = some (vs.get ⟨i, hj⟩) := by
  induction ks generalizing vs i with
  | nil => exact absurd hi (by simp)
  | cons a t ih =>
    rw [List.nodup_cons] at hnd
    cases vs with
    | nil => exact absurd hj (by simp)
    | cons b w =>
      rw [List.zip_cons_cons, dictGet_cons]
      cases i with
      | zero => simp
      | succ n =>
        have hi2 : n < t.length := by simp at hi; omega
        have hj2 : n < w.length := by simp at hj; omega
        have hga : (a :: t).get ⟨n + 1, hi⟩ = t.get ⟨n, hi2⟩ := rfl
        have hgb : (b :: w).get ⟨n + 1, hj⟩ = w.get ⟨n, hj2⟩ := rfl
        rw [hga, hgb,
          if_neg (fun e => hnd.1 (by rw [e]; exact List.get_mem t n hi2))]
        exact ih w hnd.2 n hi2 hj2

/-! ## Helper lemmas on the parsing functions -/

theorem nodup_iff_dedup_length (l : List Str) :
    l.dedup.length = l.length ↔ l.Nodup := by
  constructor
  · intro h
    exact List.dedup_eq_self.mp ((List.dedup_sublist l).eq_of_length h)
  · intro h
    rw [List.dedup_eq_self.mpr h]

theorem leefHeaderParse_ok {payload : Str} {hs : List Str}
    {d : List (Str × Str)} (h : leefHeaderParse payload hs = .ok d) :
    (headerItems payload).length = hs.length ∧ hs.Nodup ∧
      d = hs.zip (headerItems payload) := by
  simp only [leefHeaderParse] at h
  split at h
  · cases h
  · split at h
    · cases h
    · rename_i h1 h2
      rw [not_not] at h1 h2
      have hnd : hs.Nodup := (nodup_iff_dedup_length hs).mp h2
      cases h
      exact ⟨h1, hnd, headerAssign_eq_zip hs _ hnd h1.symm⟩

theorem leefHeaderParse_eq_ok {payload : Str} {hs : List Str}
    (h1 : (headerItems payload).length = hs.length) (h2 : hs.Nodup) :
    leefHeaderParse payload hs = .ok (hs.zip (headerItems payload)) := by
  simp only [leefHeaderParse]
  rw [if_neg (by simp [h1]),
    if_neg (by simp [(nodup_iff_dedup_length hs).mpr h2]),
    headerAssign_eq_zip hs _ h2 h1.symm]

theorem leefHeaderParse_shape_error {payload : Str} {hs : List Str}
    (h : (headerItems payload).length ≠ hs.length) :
    leefHeaderParse payload hs =
      .error (.wrongHeaderStructureCount (headerItems payload)) := by
  simp only [leefHeaderParse]
  rw [if_pos h]

theorem leefHeaderParse_dup_error {payload : Str} {hs : List Str}
    (h1 : (headerItems payload).length = hs.length) (h2 : ¬hs.Nodup) :
    leefHeaderParse payload hs = .error .wrongHeaderStructureDup := by
  simp only [leefHeaderParse]
  rw [if_neg (by simp [h1]), if_pos (by
    intro he
    exact h2 ((nodup_iff_dedup_length hs).mp he))]

theorem parseBodyFields_error_of_mem {segs : List Str} {s : Str}
    (acc : List (Str × Str)) (hs : s ∈ segs) (h : splitEqOnce s = none) :
    parseBodyFields acc segs = .error .valueErrorUnpack := by
  induction segs generalizing acc with
  | nil => cases hs
  | cons f fs ih =>
    cases hf : splitEqOnce f with
    | none => rw [parseBodyFields, hf]
    | some p =>
      obtain ⟨k, v⟩ := p
      rcases List.mem_cons.mp hs with rfl | hmem
      · rw [hf] at h; cases h
      · rw [parseBodyFields, hf]
        exact ih _ hmem

theorem parseBodyFields_ok_isSome {segs : List Str} {acc b : List (Str × Str)}
    (h : parseBodyFields acc segs = .ok b) :
    ∀ s ∈ segs, (splitEqOnce s).isSome := by
  induction segs generalizing acc with
  | nil => intro s hs; cases hs
  | cons f fs ih =>
    rw [parseBodyFields] at h
    cases hf : splitEqOnce f with
    | none => rw [hf] at h; cases h
    | some p =>
      obtain ⟨k, v⟩ := p
      rw [hf] at h
      intro s hs
      rcases List.mem_cons.mp hs with rfl | hmem
      · rw [hf]; rfl
      · exact ih h s hmem

theorem parseBodyFields_append (acc : List (Str × Str)) (xs ys : List Str) :
    parseBodyFields acc (xs ++ ys) =
      match parseBodyFields acc xs with
      | .error e => .error e
      | .ok acc₂ => parseBodyFields acc₂ ys := by
  induction xs generalizing acc with
  | nil => rfl
  | cons f fs ih =>
    rw [List.cons_append]
    simp only [parseBodyFields]
    cases hf : splitEqOnce f with
    | none => rfl
    | some p =>
      obtain ⟨k, v⟩ := p
      exact ih _

theorem parseBodyFields_dictGet {segs : List Str} {acc b : List (Str × Str)}
    (h : parseBodyFields acc segs = .ok b) (k : Str) :
    dictGet b k =
      (((segs.filterMap splitEqOnce).reverse.find?
        (fun p => p.1 = k)).map Prod.snd).or (dictGet acc k) := by
  induction segs generalizing acc with
  | nil =>
    cases h
    simp
  | cons f fs ih =>
    rw [parseBodyFields] at h
    cases hf : splitEqOnce f with
    | none => rw [hf] at h; cases h
    | some p =>
      obtain ⟨k₀, v₀⟩ := p
      rw [hf] at h
      rw [ih h, List.filterMap_cons, hf, List.reverse_cons, List.find?_append,
        dictGet_insert]
      by_cases hkk : k = k₀
      · subst hkk
        cases hX : List.find? (fun p => decide (p.1 = k))
            (List.filterMap splitEqOnce fs).reverse <;>
          simp [hX, List.find?_cons]
      · have hkk2 : ¬(k₀ : Str) = k := fun e => hkk e.symm
        simp [List.find?_cons, hkk, hkk2]

theorem parseRecordLine_ok {hs : List Str} {delim : Char} {line : Str}
    {r : Record} (h : parseRecordLine hs delim line = .ok r) :
    leefHeaderParse ((splitOnChar delim line).headD []) hs = .ok r.header ∧
      parseBodyFields [] (splitOnChar delim line).tail = .ok r.body := by
  simp only [parseRecordLine] at h
  cases hh : leefHeaderParse ((splitOnChar delim line).headD []) hs with
  | error e => rw [hh] at h; cases h
  | ok hd =>
    rw [hh] at h
    cases hb : parseBodyFields [] (splitOnChar delim line).tail with
    | error e => rw [hb] at h; cases h
    | ok body => rw [hb] at h; cases h; exact ⟨rfl, rfl⟩

theorem parseRecordLine_error_header {hs : List Str} {delim : Char}
    {line : Str} {e : ParseError}
    (hh : leefHeaderParse ((splitOnChar delim line).headD []) hs = .error e) :
    parseRecordLine hs delim line = .error e := by
  simp only [parseRecordLine]
  rw [hh]

theorem parseRecordLine_error_body {hs : List Str} {delim : Char}
    {line : Str} {hd : List (Str × Str)} {e : ParseError}
    (hh : leefHeaderParse ((splitOnChar delim line).headD []) hs = .ok hd)
    (hb : parseBodyFields [] (splitOnChar delim line).tail = .error e) :
    parseRecordLine hs delim line = .error e := by
  simp only [parseRecordLine]
  rw [hh, hb]

theorem parseLines_forall₂ {hs : List Str} {delim : Char} :
    ∀ {ls : List Str} {rs : List Record}, parseLines hs delim ls = .ok rs →
      List.Forall₂ (fun l r => parseRecordLine hs delim l = .ok r) ls rs := by
  intro ls
  induction ls with
  | nil => intro rs h; cases h; exact List.Forall₂.nil
  | cons l ls ih =>
    intro rs h
    rw [parseLines] at h
    cases hl : parseRecordLine hs delim l with
    | error e => rw [hl] at h; cases h
    | ok r =>
      rw [hl] at h
      cases hls : parseLines hs delim ls with
      | error e => rw [hls] at h; cases h
      | ok rs₂ =>
        rw [hls] at h
        cases h
        exact List.Forall₂.cons hl (ih hls)

theorem parseLines_cons_error {hs : List Str} {delim : Char} {l : Str}
    {ls : List Str} {e : ParseError}
    (h : parseRecordLine hs delim l = .error e) :
    parseLines hs delim (l :: ls) = .error e := by
  rw [parseLines, h]

theorem parseLines_append_error {hs : List Str} {delim : Char}
    (pre rest : List Str)
    (hpre : ∀ l ∈ pre, ∃ r, parseRecordLine hs delim l = .ok r)
    {e : ParseError} (h : parseLines hs delim rest = .error e) :
    parseLines hs delim (pre ++ rest) = .error e := by
  induction pre with
  | nil => simpa
  | cons l ls ih =>
    obtain ⟨r, hr⟩ := hpre l (List.mem_cons_self _ _)
    rw [List.cons_append, parseLines, hr,
      ih (fun x hx => hpre x (List.mem_cons_of_mem _ hx))]

theorem contains_head_false_of_headD {cs s : Str}
    (hne : s ≠ []) (h : cs.contains (s.headD ' ') = false) :
    ∀ a, s.head? = some a → cs.contains a = false := by
  cases s with
  | nil => exact absurd rfl hne
  | cons x t =>
    intro a ha
    rw [← Option.some.inj ha]
    exact h

theorem contains_getLast_false_of_getLastD {cs s : Str}
    (h : cs.contains (s.getLastD ' ') = false) :
    ∀ a, s.getLast? = some a → cs.contains a = false := by
  intro a ha
  have h2 : s.getLastD ' ' = a := by
    rw [List.getLastD_eq_getLast?, ha]
    rfl
  rw [← h2]
  exact h

theorem getLastD_mem_cons : ∀ (vs : List Str) (v : Str), vs.getLastD v ∈ v :: vs
  | [], v => List.mem_cons_self v []
  | w :: ws, v => by
    rw [List.getLastD_cons]
    exact List.mem_cons_of_mem v (getLastD_mem_cons ws w)

theorem parseBodyFields_ok_of_isSome :
    ∀ (segs : List Str) (acc : List (Str × Str)),
      (∀ s ∈ segs, (splitEqOnce s).isSome) →
      ∃ body, parseBodyFields acc segs = .ok body
  | [], acc, _ => ⟨acc, rfl⟩
  | f :: fs, acc, h => by
    cases hf : splitEqOnce f with
    | none =>
      have hsome := h f (List.mem_cons_self _ _)
      rw [hf] at hsome
      cases hsome
    | some p =>
      obtain ⟨k, v⟩ := p
      obtain ⟨b, hb⟩ := parseBodyFields_ok_of_isSome fs (dictInsert acc k v)
        (fun s hs => h s (List.mem_cons_of_mem _ hs))
      refine ⟨b, ?_⟩
      rw [parseBodyFields, hf]
      exact hb

theorem parseLines_mem_line {hs : List Str} {delim : Char} {ls : List Str}
    {rs : List Record} (h : parseLines hs delim ls = .ok rs) :
    ∀ l ∈ ls, ∃ r, parseRecordLine hs delim l = .ok r := by
  have hf := parseLines_forall₂ h
  clear h
  induction hf with
  | nil => intro l hl; cases hl
  | cons h1 _ ih =>
    intro l hl
    rcases List.mem_cons.mp hl with rfl | hmem
    · exact ⟨_, h1⟩
    · exact ih l hmem

theorem parseLines_mem_ok {hs : List Str} {delim : Char} {ls : List Str}
    {rs : List Record} (h : parseLines hs delim ls = .ok rs) :
    ∀ r ∈ rs, ∃ l, parseRecordLine hs delim l = .ok r := by
  have hf := parseLines_forall₂ h
  clear h
  induction hf with
  | nil => intro r hr; cases hr
  | cons h1 _ ih =>
    intro r hr
    rcases List.mem_cons.mp hr with rfl | hmem
    · exact ⟨_, h1⟩
    · exact ih r hmem

/-! ## Claims -/

/-- C3 (amended): for every duplicate-free schema and every raw header
string whose count of non-empty pipe-separated segments after marker
stripping differs from the schema length, the header parse fails with
the shape-mismatch error carrying the offending segments; the error
value does not carry the expected count (the schema length does not
occur in it, see the counterexample). -/
theorem headerShapeMismatch_on_count_diff (raw : Str) (schema : List Str)
    (_hnd : schema.Nodup) (hlen : (headerItems raw).length ≠ schema.length) :
    leefHeaderParse raw schema =
      .error (.wrongHeaderStructureCount (headerItems raw)) :=
  leefHeaderParse_shape_error hlen

/-- C3 counterexample: the same four-segment header produces an
identical error value against a five-field schema and against a
three-field schema, so the raised error carries the offending segments
but cannot carry the expected count. -/
theorem headerShapeMismatch_no_expected_count :
    leefHeaderParse ("a|b|c|d".toList)
        ["A".toList, "B".toList, "C".toList, "D".toList, "E".toList] =
      .error (.wrongHeaderStructureCount
        ["a".toList, "b".toList, "c".toList, "d".toList]) ∧
    leefHeaderParse ("a|b|c|d".toList)
        ["X".toList, "Y".toList, "Z".toList] =
      .error (.wrongHeaderStructureCount
        ["a".toList, "b".toList, "c".toList, "d".toList]) ∧
    leefHeaderParse ("a|b|c|d".toList)
        ["A".toList, "B".toList, "C".toList, "D".toList, "E".toList] =
      leefHeaderParse ("a|b|c|d".toList)
        ["X".toList, "Y".toList, "Z".toList] :=
  ⟨by decide, by decide, by decide⟩

/-- C3 witness: a two-segment header against a three-field schema. -/
theorem headerShapeMismatch_on_count_diff_witness :
    leefHeaderParse ("p|q".toList)
        ["A".toList, "B".toList, "C".toList] =
      .error (.wrongHeaderStructureCount ["p".toList, "q".toList]) :=
  headerShapeMismatch_on_count_diff ("p|q".toList)
    ["A".toList, "B".toList, "C".toList] (by decide) (by decide)

/-- C2 (amended): with a duplicate-containing schema the failure is
raised while parsing the first retained line, after that line's shape
check: when the payload has a retained line and the first one's header
segment count equals the schema length, the file parse fails with the
duplicate-field error.  A payload with no retained lines raises
nothing, and a first line with a differing segment count raises the
shape error instead (see the counterexample). -/
theorem duplicateSchemaField_on_first_line (payload : Str)
    (schema : List Str) (delim : Char) (l : Str) (rest : List Str)
    (hdup : ¬schema.Nodup)
    (hlines : retainedLines payload = l :: rest)
    (hshape : (headerItems ((splitOnChar delim l).headD [])).length =
      schema.length) :
    leefFileParse payload schema delim = .error .wrongHeaderStructureDup := by
  rw [leefFileParse, hlines]
  exact parseLines_cons_error
    (parseRecordLine_error_header (leefHeaderParse_dup_error hshape hdup))

/-- C2 counterexample: with the duplicate schema ["A","A","B"] an empty
payload parses successfully (no error is raised before any line is
parsed), and a one-line payload whose header has one segment fails with
the shape error, not the duplicate error — the shape check takes
precedence. -/
theorem duplicateSchemaField_not_schema_level :
    leefFileParse ([] : Str) ["A".toList, "A".toList, "B".toList] '\t' =
      .ok [] ∧
    leefFileParse ("x".toList) ["A".toList, "A".toList, "B".toList] '\t' =
      .error (.wrongHeaderStructureCount ["x".toList]) :=
  ⟨by decide, by decide⟩

/-- C2 witness: a duplicate two-name schema against a matching
two-segment header line. -/
theorem duplicateSchemaField_on_first_line_witness :
    leefFileParse ("a|b".toList) ["A".toList, "A".toList] '\t' =
      .error .wrongHeaderStructureDup :=
  duplicateSchemaField_on_first_line ("a|b".toList)
    ["A".toList, "A".toList] '\t' ("a|b".toList) [] (by decide) (by decide)
    (by decide)

/-- C9: after a successful header parse, looking up the schema name at
position i returns the i-th header segment (its field value), and
looking up any name outside the schema fails — the lookup returns
nothing, modelling the KeyError (the spec's UnknownField). -/
theorem headerLookup_by_name (raw : Str) (schema : List Str)
    (content : List (Str × Str))
    (h : leefHeaderParse raw schema = .ok content) :
    (∀ (i : Nat) (hi : i < schema.length)
        (hj : i < (headerItems raw).length),
      dictGet content (schema.get ⟨i, hi⟩) =
        some ((headerItems raw).get ⟨i, hj⟩)) ∧
    (∀ name, name ∉ schema → dictGet content name = none) := by
  obtain ⟨hlen, hnd, rfl⟩ := leefHeaderParse_ok h
  exact ⟨fun i hi hj => dictGet_zip_get schema _ hnd i hi hj,
    fun name hn => dictGet_zip_not_mem schema _ name hn⟩

/-- C9 witness: lookups in the header parsed from "LEEF:x|y" against
the schema ["P","Q"]. -/
theorem headerLookup_by_name_witness :
    dictGet [("P".toList, "x".toList), ("Q".toList, "y".toList)]
        ("P".toList) = some ("x".toList) ∧
    dictGet [("P".toList, "x".toList), ("Q".toList, "y".toList)]
        ("R".toList) = none := by
  have h := headerLookup_by_name ("LEEF:x|y".toList)
    ["P".toList, "Q".toList]
    [("P".toList, "x".toList), ("Q".toList, "y".toList)] (by decide)
  exact ⟨h.1 0 (by decide) (by decide), h.2 ("R".toList) (by decide)⟩

/-- C6: every record of a successful file parse has a header whose key
list is exactly the schema (hence equal as sets: no extra and no
missing names), with segment i assigned positionally to schema[i]. -/
theorem record_header_names_eq_schema (payload : Str) (schema : List Str)
    (delim : Char) (records : List Record) (r : Record)
    (h : leefFileParse payload schema delim = .ok records)
    (hr : r ∈ records) :
    r.header.map Prod.fst = schema ∧
    ∃ items : List Str, items.length = schema.length ∧
      r.header = schema.zip items := by
  rw [leefFileParse] at h
  obtain ⟨l, hl⟩ := parseLines_mem_ok h r hr
  obtain ⟨hh, _⟩ := parseRecordLine_ok hl
  obtain ⟨hlen, hnd, hzip⟩ := leefHeaderParse_ok hh
  refine ⟨?_, headerItems ((splitOnChar delim l).headD []), hlen, hzip⟩
  rw [hzip]
  exact List.map_fst_zip schema _ (le_of_eq hlen.symm)

/-- C6 witness: the single record parsed from "LEEF:1|2" against the
schema ["A","B"]. -/
theorem record_header_names_eq_schema_witness :
    (Record.mk [("A".toList, "1".toList), ("B".toList, "2".toList)]
        []).header.map Prod.fst = ["A".toList, "B".toList] ∧
    ∃ items : List Str, items.length = (["A".toList, "B".toList]).length ∧
      (Record.mk [("A".toList, "1".toList), ("B".toList, "2".toList)]
        []).header = (["A".toList, "B".toList]).zip items :=
  record_header_names_eq_schema ("LEEF:1|2".toList)
    ["A".toList, "B".toList] '\t'
    [Record.mk [("A".toList, "1".toList), ("B".toList, "2".toList)] []]
    (Record.mk [("A".toList, "1".toList), ("B".toList, "2".toList)] [])
    (by decide) (List.mem_singleton.mpr rfl)

/-- C4: a successful file parse yields exactly one record per retained
(non-blank, non-whitespace-only) input line, aligned with those lines
in input order; and any payload with no retained lines — the empty
payload, or one of blank lines only — parses to the empty record list
rather than an error. -/
theorem parsedFile_length_and_order (payload : Str) (schema : List Str)
    (delim : Char) (records : List Record)
    (h : leefFileParse payload schema delim = .ok records) :
    records.length = (retainedLines payload).length ∧
    List.Forall₂ (fun l r => parseRecordLine schema delim l = .ok r)
      (retainedLines payload) records ∧
    (∀ payload₂ : Str, retainedLines payload₂ = [] →
      leefFileParse payload₂ schema delim = .ok []) := by
  rw [leefFileParse] at h
  have hf := parseLines_forall₂ h
  refine ⟨(List.Forall₂.length_eq hf).symm, hf, ?_⟩
  intro p2 h2
  rw [leefFileParse, h2]
  rfl

/-- C4 witness: one LEEF line followed by a whitespace-only line parses
to exactly one record; empty and blank payloads parse to the empty
list. -/
theorem parsedFile_length_and_order_witness :
    ([Record.mk [("A".toList, "a".toList)] [("k".toList, "v".toList)]] :
        List Record).length =
      (retainedLines ("LEEF:a\tk=v\n \n".toList)).length ∧
    List.Forall₂
      (fun l r => parseRecordLine ["A".toList] '\t' l = .ok r)
      (retainedLines ("LEEF:a\tk=v\n \n".toList))
      [Record.mk [("A".toList, "a".toList)] [("k".toList, "v".toList)]] ∧
    (∀ payload₂ : Str, retainedLines payload₂ = [] →
      leefFileParse payload₂ ["A".toList] '\t' = .ok []) :=
  parsedFile_length_and_order ("LEEF:a\tk=v\n \n".toList) ["A".toList]
    '\t' [Record.mk [("A".toList, "a".toList)] [("k".toList, "v".toList)]]
    (by decide)

/-- C1 (amended): the header round-trip holds provided additionally
each value is non-empty and pipe-free, the first character of the first
value is not one of the marker characters L, E, F, colon, and neither
is the last character of the last value; the parse then maps each
schema name positionally to its original value.  Without those extra
conditions the character-class strip eats into the data (see the
counterexample). -/
theorem header_roundtrip (v0 : Str) (vs : List Str) (schema : List Str)
    (hnd : schema.Nodup) (_hne : ∀ n ∈ schema, n ≠ [])
    (hlen : schema.length = vs.length + 1)
    (hvals : ∀ v ∈ v0 :: vs, v ≠ [] ∧ '|' ∉ v)
    (hfirst : ("LEEF:".toList).contains (v0.headD ' ') = false)
    (hlast : ("LEEF:".toList).contains
      ((vs.getLastD v0).getLastD ' ') = false) :
    leefHeaderParse (buildHeader (v0 :: vs)) schema =
      .ok (schema.zip (v0 :: vs)) := by
  have hnn : ∀ w ∈ v0 :: vs, w ≠ [] := fun w hw => (hvals w hw).1
  have hv0 : v0 ≠ [] := hnn v0 (List.mem_cons_self _ _)
  have hstrip : stripChars ("LEEF:".toList) (buildHeader (v0 :: vs)) =
      joinSep '|' (v0 :: vs) := by
    refine stripChars_append_of_boundary (fun a ha => by simpa using ha)
      (joinSep_ne_nil '|' v0 vs hv0) ?_ ?_
    · intro a ha
      rw [joinSep_head? '|' v0 vs hv0] at ha
      exact contains_head_false_of_headD hv0 hfirst a ha
    · intro a ha
      rw [joinSep_getLast? '|' v0 vs hnn] at ha
      exact contains_getLast_false_of_getLastD hlast a ha
  have hitems : headerItems (buildHeader (v0 :: vs)) = v0 :: vs := by
    rw [headerItems, hstrip,
      splitOnChar_joinSep v0 vs (hvals v0 (List.mem_cons_self _ _)).2
        (fun w hw => (hvals w (List.mem_cons_of_mem _ hw)).2)]
    refine List.filter_eq_self.mpr (fun a ha => ?_)
    cases hc : (a : Str) with
    | nil => exact absurd hc (hnn a ha)
    | cons x t => rfl
  have h1 : (headerItems (buildHeader (v0 :: vs))).length = schema.length := by
    rw [hitems, List.length_cons, hlen]
  have := leefHeaderParse_eq_ok h1 hnd
  rw [hitems] at this
  exact this

/-- C1 counterexample: with schema ["A"] and value list ["LOG"], the
built header "LEEF:LOG" parses to the value "OG" — the leading L of
the data is stripped with the marker — so the parsed header does not
map the schema name back to the original value. -/
theorem header_roundtrip_strips_data :
    leefHeaderParse (buildHeader ["LOG".toList]) ["A".toList] =
      .ok [("A".toList, "OG".toList)] ∧
    dictGet [("A".toList, "OG".toList)] ("A".toList) ≠
      some ("LOG".toList) :=
  ⟨by decide, by decide⟩

/-- C1 witness: the round-trip at schema ["A"] and value list ["x"]. -/
theorem header_roundtrip_witness :
    leefHeaderParse (buildHeader ["x".toList]) ["A".toList] =
      .ok ((["A".toList]).zip ["x".toList]) :=
  header_roundtrip ("x".toList) [] ["A".toList] (by decide) (by decide)
    (by decide) (by decide) (by decide) (by decide)

/-- C5 (amended): if every retained line before some line parses
successfully, that line's header parses, and one of that line's body
segments contains no equals sign, then the parse of the entire payload
fails with the body-field unpacking error (the spec's
MalformedBodyField) and no record list — partial or complete — is
produced.  When an earlier line already fails, its error is raised
instead (see the counterexample). -/
theorem malformedBodyField_fail_fast (payload : Str) (schema : List Str)
    (delim : Char) (pre : List Str) (l : Str) (post : List Str)
    (hsplit : retainedLines payload = pre ++ l :: post)
    (hpre : ∀ x ∈ pre, ∃ r, parseRecordLine schema delim x = .ok r)
    (hhdr : ∃ hd, leefHeaderParse ((splitOnChar delim l).headD [])
      schema = .ok hd)
    (hbad : ∃ s ∈ (splitOnChar delim l).tail, splitEqOnce s = none) :
    leefFileParse payload schema delim = .error .valueErrorUnpack ∧
    ∀ records, leefFileParse payload schema delim ≠ .ok records := by
  obtain ⟨hd, hh⟩ := hhdr
  obtain ⟨s, hsmem, hsnone⟩ := hbad
  have hline : parseRecordLine schema delim l = .error .valueErrorUnpack :=
    parseRecordLine_error_body hh
      (parseBodyFields_error_of_mem [] hsmem hsnone)
  have hfail : leefFileParse payload schema delim =
      .error .valueErrorUnpack := by
    rw [leefFileParse, hsplit]
    exact parseLines_append_error pre _ hpre (parseLines_cons_error hline)
  refine ⟨hfail, fun records he => ?_⟩
  rw [hfail] at he
  cases he

/-- C5 counterexample: in the payload "x\na|b\tnoeq" the second
retained line has the body segment "noeq" without an equals sign, yet
the parse fails with the first line's header shape error, not with the
body-field error. -/
theorem malformedBodyField_not_always_reported :
    ("noeq".toList ∈ (splitOnChar '\t' ("a|b\tnoeq".toList)).tail ∧
      splitEqOnce ("noeq".toList) = none ∧
      ("a|b\tnoeq".toList) ∈ retainedLines ("x\na|b\tnoeq".toList)) ∧
    leefFileParse ("x\na|b\tnoeq".toList)
        ["A".toList, "B".toList] '\t' =
      .error (.wrongHeaderStructureCount ["x".toList]) ∧
    leefFileParse ("x\na|b\tnoeq".toList)
        ["A".toList, "B".toList] '\t' ≠
      .error .valueErrorUnpack :=
  ⟨by decide, by decide, by decide⟩

/-- C5 witness: a clean first line followed by a line whose body
segment "noeq" has no equals sign. -/
theorem malformedBodyField_fail_fast_witness :
    leefFileParse ("LEEF:a\tk=v\nLEEF:b\tnoeq".toList)
        ["A".toList] '\t' = .error .valueErrorUnpack ∧
    ∀ records, leefFileParse ("LEEF:a\tk=v\nLEEF:b\tnoeq".toList)
        ["A".toList] '\t' ≠ .ok records :=
  malformedBodyField_fail_fast ("LEEF:a\tk=v\nLEEF:b\tnoeq".toList)
    ["A".toList] '\t' ["LEEF:a\tk=v".toList] ("LEEF:b\tnoeq".toList) []
    (by decide)
    (fun x hx => by
      rw [List.mem_singleton.mp hx]
      exact ⟨Record.mk [("A".toList, "a".toList)]
        [("k".toList, "v".toList)], by decide⟩)
    ⟨[("A".toList, "b".toList)], by decide⟩
    ⟨"noeq".toList, by decide, by decide⟩

/-- C7: a body segment whose key contains no equals sign, followed by
an equals sign and an arbitrary rest (which may itself contain equals
signs), splits only at the first equals sign into the pair
(key, rest), and a body consisting of that segment maps key to rest. -/
theorem bodySegment_split_first_eq (key rest : Str) (h : '=' ∉ key) :
    splitEqOnce (key ++ '=' :: rest) = some (key, rest) ∧
    parseBodyFields [] [key ++ '=' :: rest] = .ok [(key, rest)] := by
  have hsplit : splitEqOnce (key ++ '=' :: rest) = some (key, rest) := by
    induction key with
    | nil => simp [splitEqOnce]
    | cons c cs ih =>
      have hc : c ≠ '=' := by rintro rfl; exact h (List.mem_cons_self _ _)
      rw [List.cons_append, splitEqOnce, if_neg hc,
        ih (fun hm => h (List.mem_cons_of_mem _ hm))]
      rfl
  refine ⟨hsplit, ?_⟩
  rw [parseBodyFields, hsplit]
  rfl

/-- C7 witness: the segment "key=a=b" parses to the pair
(key, "a=b"). -/
theorem bodySegment_split_first_eq_witness :
    splitEqOnce ("key=a=b".toList) =
      some ("key".toList, "a=b".toList) ∧
    parseBodyFields [] ["key=a=b".toList] =
      .ok [("key".toList, "a=b".toList)] :=
  bodySegment_split_first_eq ("key".toList) ("a=b".toList) (by decide)

/-- C8: when every body segment of a line splits on an equals sign,
the body parse succeeds — duplicate keys are not an error — and each
key maps to the value of its last (rightmost) occurrence: the lookup
equals the first match in the reversed pair list. -/
theorem bodyFields_last_occurrence_wins (segs : List Str)
    (h : ∀ s ∈ segs, (splitEqOnce s).isSome) :
    ∃ body, parseBodyFields [] segs = .ok body ∧
      ∀ k, dictGet body k =
        ((segs.filterMap splitEqOnce).reverse.find?
          (fun p => p.1 = k)).map Prod.snd := by
  obtain ⟨body, hb⟩ := parseBodyFields_ok_of_isSome segs [] h
  refine ⟨body, hb, fun k => ?_⟩
  have hg := parseBodyFields_dictGet hb k
  have hnil : dictGet [] k = none := rfl
  rw [hg, hnil, Option.or_none]

/-- C8 witness: the duplicate key k in segments ["k=1", "k=2"] is not
an error and resolves to the last value. -/
theorem bodyFields_last_occurrence_wins_witness :
    ∃ body, parseBodyFields [] ["k=1".toList, "k=2".toList] =
        .ok body ∧
      ∀ k, dictGet body k =
        (((["k=1".toList, "k=2".toList]).filterMap
          splitEqOnce).reverse.find? (fun p => p.1 = k)).map Prod.snd :=
  bodyFields_last_occurrence_wins ["k=1".toList, "k=2".toList] (by decide)

/-- C10 (implicit): an empty segment after the first (produced by a
trailing delimiter or two consecutive delimiters) is not discarded and
has no equals sign, so the body parse fails: a line whose split has an
empty tail segment and whose header parses raises the unpack error; a
line that parses successfully fails once a delimiter is appended; and a
payload containing such a retained line never parses to a record
list. -/
theorem emptyBodySegment_fails (schema : List Str) (delim : Char) :
    (∀ l hd, [] ∈ (splitOnChar delim l).tail →
      leefHeaderParse ((splitOnChar delim l).headD []) schema = .ok hd →
      parseRecordLine schema delim l = .error .valueErrorUnpack) ∧
    (∀ l r, parseRecordLine schema delim l = .ok r →
      parseRecordLine schema delim (l ++ [delim]) =
        .error .valueErrorUnpack) ∧
    (∀ payload l, l ∈ retainedLines payload →
      [] ∈ (splitOnChar delim l).tail →
      ∀ records, leefFileParse payload schema delim ≠ .ok records) := by
  refine ⟨?_, ?_, ?_⟩
  · intro l hd hmem hh
    exact parseRecordLine_error_body hh
      (parseBodyFields_error_of_mem [] hmem rfl)
  · intro l r hok
    obtain ⟨hh, hb⟩ := parseRecordLine_ok hok
    obtain ⟨y, ys, hys⟩ : ∃ y ys, splitOnChar delim l = y :: ys := by
      cases hsp : splitOnChar delim l with
      | nil => exact absurd hsp (splitOnChar_ne_nil delim l)
      | cons y ys => exact ⟨y, ys, rfl⟩
    have hhead2 : (splitOnChar delim (l ++ [delim])).headD [] =
        (splitOnChar delim l).headD [] := by
      rw [splitOnChar_concat, hys]
      rfl
    have htail2 : (splitOnChar delim (l ++ [delim])).tail = ys ++ [[]] := by
      rw [splitOnChar_concat, hys]
      rfl
    refine parseRecordLine_error_body (hhead2 ▸ hh) ?_
    rw [htail2]
    exact parseBodyFields_error_of_mem []
      ((by simp : ([] : Str) ∈ ys ++ [[]]))
      (show splitEqOnce [] = none from rfl)
  · intro payload l hl hmem records hok
    rw [leefFileParse] at hok
    obtain ⟨r, hr⟩ := parseLines_mem_line hok l hl
    obtain ⟨_, hb⟩ := parseRecordLine_ok hr
    rw [parseBodyFields_error_of_mem [] hmem rfl] at hb
    cases hb

/-- C10 witness: the line "LEEF:v\tk=1" parses to a record, and the
same line with a trailing tab fails with the unpack error. -/
theorem emptyBodySegment_fails_witness :
    parseRecordLine ["A".toList] '\t'
        ("LEEF:v\tk=1".toList ++ ['\t']) = .error .valueErrorUnpack :=
  (emptyBodySegment_fails ["A".toList] '\t').2.1 ("LEEF:v\tk=1".toList)
    (Record.mk [("A".toList, "v".toList)] [("k".toList, "1".toList)])
    (by decide)

end Leef
